import Mathlib

/-!
Verification of the Social Empires save-file editor core (`editor.py`).

The development shallowly embeds the data layer of the editor:

* a JSON value tree `Json` together with a serializer `dumps` and a parser
  `parseTop`, modelling the Python `json` module as used by
  `FileLoaderThread.run` (`json.load`) and `save_file` (`json.dump`);
* the JSON-Patch application helper `apply_all_patches`;
* the save/config data model (`ItemInstance`, `ConfigItem`) and the editor
  operations `find_missing_ids`, `add_item_to_save`, `delete_selected_items`,
  `edit_player_resources`, `on_file_loaded` and `FileLoaderThread_run`.

Machine integers do not occur: Python integers are arbitrary precision and are
embedded as `Int`/`Nat`.
-/

/-- A JSON value as produced by Python's `json.load`: objects keep their textual
field order (Python dicts preserve insertion order).  Numbers are modelled as
integers only: every numeric field of the config/save data model is integral,
so the float fragment of JSON is out of scope of this embedding. -/
inductive Json where
  | null
  | bool (b : Bool)
  | int (n : Int)
  | str (s : String)
  | arr (elems : List Json)
  | obj (fields : List (String × Json))

/-- Decimal digit to character, `digitChar 3 = '3'`. -/
def digitChar (d : Nat) : Char := Char.ofNat (48 + d)

/-- Fuel-indexed decimal printer: `digitsGo f n` is the decimal expansion of
`n` provided `n < f`. -/
def digitsGo : Nat → Nat → List Char
  | 0, _ => []
  | f+1, n => if n < 10 then [digitChar n] else digitsGo f (n / 10) ++ [digitChar (n % 10)]

/-- Decimal expansion of a natural number. -/
def natChars (n : Nat) : List Char := digitsGo (n + 1) n

/-- Decimal expansion of an integer, with a leading minus sign when negative. -/
def intChars (n : Int) : List Char :=
  if n < 0 then '-' :: natChars n.natAbs else natChars n.toNat

/-- JSON string-body escaping.  The two escapes that are semantically required
are produced (`\"` and `\\`); control-character and non-ASCII escaping
(`\uXXXX`), a presentation detail of CPython's encoder, is elided. -/
def escapeChars : List Char → List Char
  | [] => []
  | c :: cs => if c == '"' || c == '\\' then '\\' :: c :: escapeChars cs else c :: escapeChars cs

/-- A JSON string literal: quote, escaped body, quote. -/
def serStr (s : String) : List Char := '"' :: (escapeChars s.toList ++ ['"'])

mutual

/-- Serializer for `Json`, modelling `json.dump(self.save_data, file, indent=4)`
from `save_file` (editor.py lines 543-549) up to inter-token whitespace: the
`indent=4` option only inserts whitespace, which the parser below skips, so the
compact rendering is used.  Commas and colons separate elements exactly as in
Python's output. -/
def dumps : Json → List Char
  | Json.null => "null".toList
  | Json.bool true => "true".toList
  | Json.bool false => "false".toList
  | Json.int n => intChars n
  | Json.str s => serStr s
  | Json.arr [] => ['[', ']']
  | Json.arr (x :: xs) => '[' :: (serList x xs ++ [']'])
  | Json.obj [] => ['\x7b', '\x7d']
  | Json.obj (kv :: kvs) => '\x7b' :: (serFields kv kvs ++ ['\x7d'])
termination_by j => sizeOf j

/-- Comma-separated serialization of a non-empty array body. -/
def serList : Json → List Json → List Char
  | x, [] => dumps x
  | x, y :: ys => dumps x ++ ',' :: serList y ys
termination_by x ys => 1 + sizeOf x + sizeOf ys

/-- Comma-separated serialization of a non-empty object body. -/
def serFields : (String × Json) → List (String × Json) → List Char
  | (k, v), [] => serStr k ++ ':' :: dumps v
  | (k, v), kv2 :: kvs => serStr k ++ ':' :: dumps v ++ ',' :: serFields kv2 kvs
termination_by kv kvs => 1 + sizeOf kv + sizeOf kvs

end

/-- JSON insignificant whitespace, as skipped by Python's `json` scanner. -/
def isWs (c : Char) : Bool :=
  c == ' ' || c == '\t' || c == '\n' || c == '\r'

/-- Drop leading insignificant whitespace. -/
def skipWs : List Char → List Char
  | [] => []
  | c :: cs => if isWs c then skipWs cs else c :: cs

/-- ASCII decimal digit test. -/
def isDigit (c : Char) : Bool :=
  '0' ≤ c && c ≤ '9'

/-- Numeric value of a digit character. -/
def digitVal (c : Char) : Nat := c.toNat - 48

/-- Consume a maximal run of digits, accumulating their decimal value. -/
def readDigits : List Char → Nat → Nat × List Char
  | c :: cs, acc => if isDigit c then readDigits cs (acc * 10 + digitVal c) else (acc, c :: cs)
  | [], acc => (acc, [])

/-- Parse a JSON integer literal (optional minus sign, digit run). -/
def parseNum : List Char → Option (Json × List Char)
  | '-' :: c :: cs =>
    if isDigit c then
      let p := readDigits (c :: cs) 0
      some (Json.int (-(p.1 : Int)), p.2)
    else none
  | c :: cs =>
    if isDigit c then
      let p := readDigits (c :: cs) 0
      some (Json.int (p.1 : Int), p.2)
    else none
  | [] => none

/-- Parse a JSON string body after the opening quote, returning the unescaped
characters and the input after the closing quote. -/
def parseStrChars : List Char → Option (List Char × List Char)
  | '"' :: cs => some ([], cs)
  | '\\' :: c :: cs =>
    if c == '"' || c == '\\' then
      match parseStrChars cs with
      | some (s, rest) => some (c :: s, rest)
      | none => none
    else none
  | c :: cs =>
    match parseStrChars cs with
    | some (s, rest) => some (c :: s, rest)
    | none => none
  | [] => none

/-- Parser mode: a full value, the tail of a non-empty array (after `[`), or
the tail of a non-empty object (after the opening brace). -/
inductive PM where
  | v
  | arrTail
  | objTail

/-- Recursive-descent JSON parser, fuel-indexed to make the recursion
structural.  In mode `PM.arrTail`/`PM.objTail` the result value is always an
`arr`/`obj` node holding the remaining elements. -/
def parseP : Nat → PM → List Char → Option (Json × List Char)
  | 0, _, _ => none
  | fuel+1, PM.v, cs =>
    match skipWs cs with
    | [] => none
    | c :: cs2 =>
      if isDigit c || c == '-' then parseNum (c :: cs2)
      else
        match c, cs2 with
        | 'n', 'u' :: 'l' :: 'l' :: rest => some (Json.null, rest)
        | 't', 'r' :: 'u' :: 'e' :: rest => some (Json.bool true, rest)
        | 'f', 'a' :: 'l' :: 's' :: 'e' :: rest => some (Json.bool false, rest)
        | '"', rest =>
          match parseStrChars rest with
          | some (s, rest2) => some (Json.str (String.mk s), rest2)
          | none => none
        | '[', rest =>
          match skipWs rest with
          | ']' :: rest2 => some (Json.arr [], rest2)
          | rest2 => parseP fuel PM.arrTail rest2
        | '\x7b', rest =>
          match skipWs rest with
          | '\x7d' :: rest2 => some (Json.obj [], rest2)
          | rest2 => parseP fuel PM.objTail rest2
        | _, _ => none
  | fuel+1, PM.arrTail, cs =>
    match parseP fuel PM.v cs with
    | some (x, cs1) =>
      match skipWs cs1 with
      | ',' :: cs2 =>
        match parseP fuel PM.arrTail cs2 with
        | some (Json.arr xs, cs3) => some (Json.arr (x :: xs), cs3)
        | _ => none
      | ']' :: cs2 => some (Json.arr [x], cs2)
      | _ => none
    | none => none
  | fuel+1, PM.objTail, cs =>
    match skipWs cs with
    | '"' :: cs0 =>
      match parseStrChars cs0 with
      | some (k, cs1) =>
        match skipWs cs1 with
        | ':' :: cs2 =>
          match parseP fuel PM.v cs2 with
          | some (v, cs3) =>
            match skipWs cs3 with
            | ',' :: cs4 =>
              match parseP fuel PM.objTail cs4 with
              | some (Json.obj kvs, cs5) => some (Json.obj ((String.mk k, v) :: kvs), cs5)
              | _ => none
            | '\x7d' :: cs4 => some (Json.obj [(String.mk k, v)], cs4)
            | _ => none
          | none => none
        | _ => none
      | none => none
    | _ => none

/-- Top-level JSON parse, modelling `json.load`: one value, optionally
surrounded by whitespace, and nothing else.  The fuel `length + 1` dominates
the nesting depth of any parse. -/
def parseTop (cs : List Char) : Option Json :=
  match parseP (cs.length + 1) PM.v cs with
  | some (j, rest) => if (skipWs rest).isEmpty then some j else none
  | none => none

/-- First value bound to key `k` in an object body (Python dict lookup). -/
def getField (k : String) : List (String × Json) → Option Json
  | [] => none
  | (k2, v) :: fs => if k2 == k then some v else getField k fs

/-- Replace the value bound to key `k`, keeping its position (Python
`d[k] = v` on an existing key). -/
def setField (k : String) (v : Json) : List (String × Json) → List (String × Json)
  | [] => []
  | (k2, v2) :: fs => if k2 == k then (k2, v) :: fs else (k2, v2) :: setField k v fs

/-- Python `key in d` for a parsed JSON object. -/
def hasKey (k : String) (fields : List (String × Json)) : Bool :=
  (getField k fields).isSome

/-- A JSON-Pointer token that addresses an array element must be a plain
decimal index. -/
def parseIdx (s : String) : Option Nat :=
  let cs := s.toList
  if !cs.isEmpty && cs.all isDigit then some (readDigits cs 0).1 else none

/-- One RFC 6902 patch operation with a pre-tokenized JSON-Pointer path.
Modelled from the spec: the operations are executed by the third-party
`jsonpatch` library (`jsonpatch.JsonPatch(...).apply`), which is not part of
this repository; the subset exercised by the config patches (`add`, `remove`,
`replace`) is embedded with standard JSON-Patch semantics. -/
inductive PatchOp where
  | add (path : List String) (value : Json)
  | remove (path : List String)
  | replace (path : List String) (value : Json)

/-- JSON-Patch `add`: follow the path, then insert into an object (append for
a fresh key, overwrite in place otherwise) or into an array (`-` appends, an
index `i ≤ length` inserts before position `i`). -/
def jadd : List String → Json → Json → Option Json
  | [], v, _ => some v
  | [tok], v, Json.obj fs =>
    if (getField tok fs).isSome then some (Json.obj (setField tok v fs))
    else some (Json.obj (fs ++ [(tok, v)]))
  | [tok], v, Json.arr xs =>
    if tok == "-" then some (Json.arr (xs ++ [v]))
    else
      match parseIdx tok with
      | some i => if i ≤ xs.length then some (Json.arr (xs.take i ++ v :: xs.drop i)) else none
      | none => none
  | [_], _, _ => none
  | tok :: rest, v, Json.obj fs =>
    match getField tok fs with
    | some child =>
      match jadd rest v child with
      | some c2 => some (Json.obj (setField tok c2 fs))
      | none => none
    | none => none
  | tok :: rest, v, Json.arr xs =>
    match parseIdx tok with
    | some i =>
      match xs[i]? with
      | some child =>
        match jadd rest v child with
        | some c2 => some (Json.arr (xs.set i c2))
        | none => none
      | none => none
    | none => none
  | _ :: _, _, _ => none

/-- JSON-Patch `remove`: the addressed member must exist and is deleted. -/
def jremove : List String → Json → Option Json
  | [], _ => none
  | [tok], Json.obj fs =>
    if (getField tok fs).isSome then some (Json.obj (fs.filter (fun kv => !(kv.1 == tok))))
    else none
  | [tok], Json.arr xs =>
    match parseIdx tok with
    | some i => if i < xs.length then some (Json.arr (xs.eraseIdx i)) else none
    | none => none
  | [_], _ => none
  | tok :: rest, Json.obj fs =>
    match getField tok fs with
    | some child =>
      match jremove rest child with
      | some c2 => some (Json.obj (setField tok c2 fs))
      | none => none
    | none => none
  | tok :: rest, Json.arr xs =>
    match parseIdx tok with
    | some i =>
      match xs[i]? with
      | some child =>
        match jremove rest child with
        | some c2 => some (Json.arr (xs.set i c2))
        | none => none
      | none => none
    | none => none
  | _ :: _, _ => none

/-- JSON-Patch `replace`: the addressed member must exist and is overwritten. -/
def jreplace : List String → Json → Json → Option Json
  | [], v, _ => some v
  | [tok], v, Json.obj fs =>
    if (getField tok fs).isSome then some (Json.obj (setField tok v fs)) else none
  | [tok], v, Json.arr xs =>
    match parseIdx tok with
    | some i => if i < xs.length then some (Json.arr (xs.set i v)) else none
    | none => none
  | [_], _, _ => none
  | tok :: rest, v, Json.obj fs =>
    match getField tok fs with
    | some child =>
      match jreplace rest v child with
      | some c2 => some (Json.obj (setField tok c2 fs))
      | none => none
    | none => none
  | tok :: rest, v, Json.arr xs =>
    match parseIdx tok with
    | some i =>
      match xs[i]? with
      | some child =>
        match jreplace rest v child with
        | some c2 => some (Json.arr (xs.set i c2))
        | none => none
      | none => none
    | none => none
  | _ :: _, _, _ => none

/-- Apply one patch operation; a failing operation reports an error. -/
def applyOp (doc : Json) : PatchOp → Except String Json
  | PatchOp.add path v =>
    match jadd path v doc with
    | some d => Except.ok d
    | none => Except.error "add operation failed"
  | PatchOp.remove path =>
    match jremove path doc with
    | some d => Except.ok d
    | none => Except.error "remove operation failed"
  | PatchOp.replace path v =>
    match jreplace path v doc with
    | some d => Except.ok d
    | none => Except.error "replace operation failed"

/-- Apply a whole patch document (`jsonpatch.JsonPatch(patch_data).apply`,
with the default `in_place=False`): the operations run in sequence on a copy,
so the result is either the fully patched document or an error with the
original document untouched — one document applies atomically. -/
def applyPatchDoc (ops : List PatchOp) (doc : Json) : Except String Json :=
  List.foldlM (fun d op => applyOp d op) doc ops

/-- `str.endswith(".json")` from `apply_all_patches` (editor.py line 26),
expressed as a suffix test on the character list (Lean's `String.endsWith`
does not reduce in the kernel). -/
def endswith_json (s : String) : Bool :=
  ".json".toList.isSuffixOf s.toList

/-- One directory entry seen by `apply_all_patches`: the file name, and the
outcome of reading/parsing it into a patch document (`json.load` plus
`jsonpatch.JsonPatch`, which can fail with an exception). -/
abbrev PatchEntry := String × Except String (List PatchOp)

/-- `apply_all_patches` (editor.py lines 20-36) without the directory-existence
guard: iterate over the `os.listdir` listing in listing order; for each entry
ending in `.json`, parse it and apply it to the accumulated config; any
exception (parse or patch application) is caught, reported, and the
accumulator is left as it was. -/
def apply_all_patches (base_config : Json) (listing : List PatchEntry) : Json :=
  listing.foldl
    (fun cfg entry =>
      if endswith_json entry.1 then
        match entry.2 with
        | Except.error _ => cfg
        | Except.ok ops =>
          match applyPatchDoc ops cfg with
          | Except.ok cfg2 => cfg2
          | Except.error _ => cfg
      else cfg)
    base_config

/-- `apply_all_patches` including the `os.path.exists(patch_dir)` guard
(editor.py lines 22-23): a missing directory returns the base unchanged. -/
def apply_all_patches_dir (base_config : Json) (dirExists : Bool) (listing : List PatchEntry) : Json :=
  if dirExists then apply_all_patches base_config listing else base_config

/-- Lexicographic (code-point) order on character lists, the order `sorted`
would impose on file names. -/
def lexLe : List Char → List Char → Bool
  | [], _ => true
  | _ :: _, [] => false
  | a :: as, b :: bs => if a = b then lexLe as bs else decide (a.toNat ≤ b.toNat)

/-- Modelled from the spec: the deterministic patch order the spec prescribes,
"lexicographic by file name".  Used to state the ordering claim against the
source's listing-order behaviour. -/
def sortByName (listing : List PatchEntry) : List PatchEntry :=
  List.insertionSort (fun a b => lexLe a.1.toList b.1.toList) listing

/-- One item instance of a town: the positional tuple
`[id, x, y, flag0, flag1, flag2, extraList, extraMap]` (editor.py line 733). -/
structure ItemInstance where
  id : Int
  x : Int
  y : Int
  flag0 : Int
  flag1 : Int
  flag2 : Int
  extraList : List Json
  extraMap : List (String × Json)

/-- One config (catalog) item definition: a keyed record with an integer
`id` (editor.py line 794 casts it with `int(...)`), a display name and an
image name. -/
structure ConfigItem where
  id : Int
  name : String
  img_name : String

/-- `find_missing_ids` (editor.py lines 789-804), the data part: the set of
instance ids of the current town minus the set of config ids.  A pure
function of the two lists; nothing is mutated. -/
def find_missing_ids (config_items : List ConfigItem) (save_items : List ItemInstance) : Finset Int :=
  let config_ids := (config_items.map (fun item => item.id)).toFinset
  let save_ids := (save_items.map (fun sitem => sitem.id)).toFinset
  save_ids \ config_ids

/-- The tuple `[int(item_id), 54, 54, 0, 0, 0, [], \x7b\x7d]` appended by
`add_item_to_save` (editor.py line 733): the chosen id, the editor's fixed
placement (54, 54), zeroed flags and empty reserved containers. -/
def mkItemTuple (item_id : Int) : ItemInstance :=
  ⟨item_id, 54, 54, 0, 0, 0, [], []⟩

/-- The `for _ in range(quantity)` append loop of `add_item_to_save`
(editor.py lines 732-733). -/
def addLoop : List ItemInstance → Int → Nat → List ItemInstance
  | items, _, 0 => items
  | items, item_id, n+1 => addLoop (items ++ [mkItemTuple item_id]) item_id n

/-- `add_item_to_save` (editor.py lines 717-736), the data part: append
`quantity` copies of the new item tuple to the current town's items.
`range(quantity)` iterates `max(quantity, 0)` times, hence `Int.toNat`. -/
def add_item_to_save (save_items : List ItemInstance) (item_id : Int) (quantity : Int) : List ItemInstance :=
  addLoop save_items item_id quantity.toNat

/-- The error taxonomy the spec assigns to `addInstances`.  Modelled from the
spec: the source never raises any quantity error, so this type exists to state
that claim. -/
inductive AddError where
  | invalidQuantity

/-- `add_item_to_save` wrapped in its (absent) error channel: the source
performs no quantity validation and always returns normally. -/
def add_item_to_save_run (save_items : List ItemInstance) (item_id : Int) (quantity : Int) :
    Except AddError (List ItemInstance) :=
  Except.ok (add_item_to_save save_items item_id quantity)

/-- The quantity spinbox (editor.py lines 413-415): `setMinimum(1)` with the
`QSpinBox` default maximum of 99, so `value()` is the typed value clamped into
`[1, 99]`. -/
def quantity_box_value (v : Int) : Int := max 1 (min v 99)

/-- Reference function for deletion: keep the element at absolute position
`i` exactly when `i` is not a selected row. -/
def keepFrom (selected : List Nat) : Nat → List α → List α
  | _, [] => []
  | i, a :: as =>
    if i ∈ selected then keepFrom selected (i+1) as else a :: keepFrom selected (i+1) as

/-- `delete_selected_items` (editor.py lines 738-763), the data part: the
selected row indices are de-duplicated (`list({...})`), sorted descending
(`sort(reverse=True)`), and each surviving index in range of the current
(shrinking) list is deleted (`del self.save_items[row]`). -/
def delete_selected_items (items : List α) (selected : List Nat) : List α :=
  let rows := (List.insertionSort (fun a b => a ≤ b) selected.dedup).reverse
  rows.foldl (fun acc row => if row < acc.length then acc.eraseIdx row else acc) items

/-- `playerInfo` fields touched or displayed by the resource editor. -/
structure PlayerInfo where
  pid : Int
  name : String
  cash : Int

/-- The town record (`maps[0]`) fields touched by the resource editor. -/
structure TownMap where
  name : String
  coins : Int
  xp : Int
  level : Int
  stone : Int
  wood : Int
  food : Int
  race : String
  skin : Nat

/-- `privateState` fields touched by the resource editor. -/
structure PrivateState where
  mana : Int

/-- The values held by the dialog's widgets when it is accepted: one requested
value per numeric spinbox, plus the two combo-box selections (a combo box
index is always in range of its option list). -/
structure ResourceEdit where
  cash : Int
  coins : Int
  xp : Int
  level : Int
  stone : Int
  wood : Int
  food : Int
  mana : Int
  raceIdx : Fin 2
  skinIdx : Fin 7

/-- The resource spinboxes (editor.py lines 148-151): `setMaximum(1000000000)`
with the `QSpinBox` default minimum of 0, so a stored value is the requested
one clamped into `[0, 1000000000]`. -/
def spinClamp (v : Int) : Int := max 0 (min v 1000000000)

/-- The race dropdown options (editor.py line 156). -/
def race_options : List String := ["h", "t"]

/-- `edit_player_resources` (editor.py lines 115-210), the accepted-dialog
write-back (lines 192-208): each spinbox value is stored into its owning
record — `cash` into `playerInfo`, `coins/xp/level/stone/wood/food/race/skin`
into `maps[0]`, `mana` into `privateState`; `race` is the selected option
string and `skin` the selected index. -/
def edit_player_resources (player_info : PlayerInfo) (map_data : TownMap)
    (private_state : PrivateState) (req : ResourceEdit) :
    PlayerInfo × TownMap × PrivateState :=
  ({ player_info with cash := spinClamp req.cash },
   { map_data with
      coins := spinClamp req.coins,
      xp := spinClamp req.xp,
      level := spinClamp req.level,
      stone := spinClamp req.stone,
      wood := spinClamp req.wood,
      food := spinClamp req.food,
      race := race_options.get ⟨req.raceIdx.1, req.raceIdx.2⟩,
      skin := req.skinIdx.1 },
   { private_state with mana := spinClamp req.mana })

/-- What `on_file_loaded` does with the delivered data: report a failed load,
adopt a save file, adopt a config item list, or warn about an unrecognized
structure. -/
inductive LoadOutcome where
  | loadFailed
  | saveLoaded (data : List (String × Json))
  | configLoaded (items : Json)
  | unrecognized

/-- `on_file_loaded` (editor.py lines 506-531): an empty dict is a failed
load; otherwise a dict with a `maps` key is adopted as a save file, else one
with an `items` key as a config, else the structure is unrecognized.  The
dict delivered by the loader signal is embedded as its key/value list. -/
def on_file_loaded (data : List (String × Json)) : LoadOutcome :=
  if data.isEmpty then LoadOutcome.loadFailed
  else if hasKey "maps" data then LoadOutcome.saveLoaded data
  else
    match getField "items" data with
    | some items => LoadOutcome.configLoaded items
    | none => LoadOutcome.unrecognized

/-- `FileLoaderThread.run` (editor.py lines 51-63): on any exception the empty
dict is emitted; on success the parsed dict is emitted, after patch
application when requested, the file is a config (`"items" in data`) and a
patch directory is configured.  The `file_loaded` signal is typed `dict`, so
the embedding covers JSON documents that parse to objects; a patched config
that is no longer an object cannot pass the signal, which surfaces as the
caught-exception path. -/
def FileLoaderThread_run (parsed : Except String (List (String × Json)))
    (apply_patches : Bool) (patch_dir_set : Bool) (dirExists : Bool)
    (listing : List PatchEntry) : List (String × Json) :=
  match parsed with
  | Except.error _ => []
  | Except.ok data =>
    if apply_patches && hasKey "items" data && patch_dir_set then
      match apply_all_patches_dir (Json.obj data) dirExists listing with
      | Json.obj data2 => data2
      | _ => []
    else data

/-- A list of characters that may legally follow a serialized JSON integer:
the end of input or a closing/separating token.  Used to state where the
digit scanner stops. -/
def Delim : List Char → Prop := fun rest =>
  rest = [] ∨ ∃ c t, rest = c :: t ∧ (c = ',' ∨ c = ']' ∨ c = '\x7d')

/-- C1: `find_missing_ids` returns exactly the set difference between the
identifiers of the town's item instances and the identifiers of the config's
definitions, and for a town with no instances the result is empty.  It is a
pure function of the two item lists: neither the config nor the save is
touched. -/
theorem find_missing_ids_is_set_difference (config_items : List ConfigItem)
    (save_items : List ItemInstance) :
    (∀ x : Int, x ∈ find_missing_ids config_items save_items ↔
      ((∃ s ∈ save_items, s.id = x) ∧ ¬ ∃ c ∈ config_items, c.id = x)) ∧
    (save_items = [] → find_missing_ids config_items save_items = ∅) := by
  constructor
  · intro x
    simp [find_missing_ids]
  · rintro rfl
    simp [find_missing_ids]

/-- Witness for C1 at a concrete input: a town with no instances yields the
empty set of missing ids. -/
theorem find_missing_ids_empty_town_witness :
    find_missing_ids [⟨1, "Hut", "hut"⟩] [] = ∅ :=
  (find_missing_ids_is_set_difference [⟨1, "Hut", "hut"⟩] []).2 rfl

/-- The append loop unrolls to appending `n` copies of the new tuple. -/
theorem addLoop_eq (n : Nat) : ∀ (items : List ItemInstance) (item_id : Int),
    addLoop items item_id n = items ++ List.replicate n (mkItemTuple item_id) := by
  induction n with
  | zero => intro items item_id; simp [addLoop]
  | succ m ih =>
    intro items item_id
    rw [addLoop, ih]
    simp [List.replicate_succ]

/-- C5 counterexample: the claim quantifies over every placement, but the code
takes no placement parameter and hard-codes (54, 54) (editor.py line 733).
Instantiating the claim at the placement (10, 20) with one instance of id 1:
the claim predicts the appended tuple `[1, 10, 20, 0, 0, 0, [], \x7b\x7d]`, while the
code appends its fixed `[1, 54, 54, 0, 0, 0, [], \x7b\x7d]`. -/
theorem add_item_ignores_placement :
    add_item_to_save [] 1 1 = [mkItemTuple 1] ∧
    (mkItemTuple 1).x = 54 ∧ (mkItemTuple 1).y = 54 ∧
    ¬ (add_item_to_save [] 1 1 = [⟨1, 10, 20, 0, 0, 0, [], []⟩]) := by
  refine ⟨rfl, rfl, rfl, ?_⟩
  intro h
  have h2 : (54 : Int) = 10 :=
    congrArg (fun l => match l with | i :: _ => ItemInstance.x i | [] => 0) h
  exact absurd h2 (by decide)

/-- C5 amended: for a positive count, `add_item_to_save` appends exactly
`quantity` copies of the fully populated 8-field tuple
`[item_id, 54, 54, 0, 0, 0, [], \x7b\x7d]` — the editor's fixed placement (54, 54),
the only placement the code offers (editor.py line 733) — to the end of the
town's items, leaving all pre-existing items and their order unchanged. -/
theorem add_item_to_save_appends (save_items : List ItemInstance) (item_id : Int)
    (quantity : Int) (hq : 1 ≤ quantity) :
    add_item_to_save save_items item_id quantity
      = save_items ++ List.replicate quantity.toNat (mkItemTuple item_id) ∧
    (quantity.toNat : Int) = quantity ∧
    (add_item_to_save save_items item_id quantity).take save_items.length = save_items := by
  refine ⟨addLoop_eq quantity.toNat save_items item_id, by omega, ?_⟩
  rw [add_item_to_save, addLoop_eq quantity.toNat save_items item_id]
  simp

/-- Witness for the amended C5 at the spec's scenario: adding 3 instances of
id 1 appends exactly three tuples `[1, 54, 54, 0, 0, 0, [], \x7b\x7d]`. -/
theorem add_item_to_save_appends_witness :
    add_item_to_save [] 1 3 = [] ++ List.replicate (Int.toNat 3) (mkItemTuple 1) :=
  (add_item_to_save_appends [] 1 3 (by decide)).1

/-- C9 counterexample: at count 0 the add operation completes normally with the
items unchanged; no `InvalidQuantityError` (or any error) is produced. -/
theorem add_item_zero_count_not_rejected :
    add_item_to_save_run [] 7 0 = Except.ok [] ∧
    ¬ (add_item_to_save_run [] 7 0 = Except.error AddError.invalidQuantity) :=
  ⟨rfl, fun h => Except.noConfusion h⟩

/-- C9 amended: the source performs no quantity validation and raises nothing;
a non-positive count appends nothing (the `range` loop is empty), and
non-positive counts cannot be produced by the UI because the quantity spinbox
clamps its value to at least 1. -/
theorem add_item_nonpositive_is_silent_noop :
    (∀ (save_items : List ItemInstance) (item_id quantity : Int), quantity ≤ 0 →
        add_item_to_save_run save_items item_id quantity = Except.ok save_items) ∧
    (∀ v : Int, 1 ≤ quantity_box_value v) := by
  constructor
  · intro save_items item_id quantity hq
    have h0 : quantity.toNat = 0 := by omega
    rw [add_item_to_save_run, add_item_to_save, h0, addLoop]
  · intro v
    exact le_max_left 1 (min v 99)

/-- Witness for the amended C9 at concrete inputs: count 0 returns the town
unchanged, and the spinbox never reports a value below 1. -/
theorem add_item_nonpositive_is_silent_noop_witness :
    add_item_to_save_run [] 7 0 = Except.ok [] ∧ 1 ≤ quantity_box_value (-5) :=
  ⟨add_item_nonpositive_is_silent_noop.1 [] 7 0 (by decide),
   add_item_nonpositive_is_silent_noop.2 (-5)⟩

/-- C10: the loader thread delivers the empty dict both for every caught load
failure and for the file whose content is the valid empty JSON object, and the
callback reports any empty delivery as a failed load without adopting any
document state — a valid-but-empty input is indistinguishable from a parse
error at this interface. -/
theorem loader_empty_dict_sentinel :
    (∀ (ap pd de : Bool) (listing : List PatchEntry),
        FileLoaderThread_run (Except.ok []) ap pd de listing = []) ∧
    (∀ (e : String) (ap pd de : Bool) (listing : List PatchEntry),
        FileLoaderThread_run (Except.error e) ap pd de listing = []) ∧
    on_file_loaded [] = LoadOutcome.loadFailed := by
  refine ⟨?_, ?_, rfl⟩
  · intro ap pd de listing
    simp [FileLoaderThread_run, hasKey, getField]
  · intro e ap pd de listing
    rfl

/-- C7 counterexample: a document carrying both shapes (`maps` and `items`) is
adopted as a save file, not rejected as ambiguous — the claim's
"fails exactly when ambiguous" is false on this input. -/
theorem ambiguous_document_is_not_rejected :
    on_file_loaded [("maps", Json.arr []), ("items", Json.arr [])]
      = LoadOutcome.saveLoaded [("maps", Json.arr []), ("items", Json.arr [])] ∧
    LoadOutcome.saveLoaded [("maps", Json.arr []), ("items", Json.arr [])]
      ≠ LoadOutcome.unrecognized :=
  ⟨rfl, fun h => LoadOutcome.noConfusion h⟩

/-- C7 amended: a non-empty document with a `maps` key is classified as a save
file (checked first, so a document with both `maps` and `items` counts as a
save, not as ambiguous); one with `items` but no `maps` as a config; the
unrecognized warning fires exactly for non-empty documents with neither key;
and an empty document is reported as a failed load before classification. -/
theorem on_file_loaded_classification (data : List (String × Json)) :
    (on_file_loaded data = LoadOutcome.unrecognized ↔
      (data ≠ [] ∧ hasKey "maps" data = false ∧ getField "items" data = none)) ∧
    (data ≠ [] → hasKey "maps" data = true →
      on_file_loaded data = LoadOutcome.saveLoaded data) ∧
    (∀ items : Json, data ≠ [] → hasKey "maps" data = false →
      getField "items" data = some items →
      on_file_loaded data = LoadOutcome.configLoaded items) ∧
    (data = [] → on_file_loaded data = LoadOutcome.loadFailed) := by
  refine ⟨⟨?_, ?_⟩, ?_, ?_, ?_⟩
  · intro h
    by_cases he : data = []
    · rw [on_file_loaded, if_pos (by simp [he])] at h
      exact absurd h (by intro hx; exact LoadOutcome.noConfusion hx)
    · rw [on_file_loaded, if_neg (by simp [he])] at h
      by_cases hm : hasKey "maps" data = true
      · rw [if_pos hm] at h
        exact absurd h (by intro hx; exact LoadOutcome.noConfusion hx)
      · rw [if_neg hm] at h
        refine ⟨he, by simpa using hm, ?_⟩
        cases hi : getField "items" data with
        | none => rfl
        | some items =>
          rw [hi] at h
          exact absurd h (by intro hx; exact LoadOutcome.noConfusion hx)
  · rintro ⟨he, hm, hi⟩
    rw [on_file_loaded, if_neg (by simp [he]), if_neg (by simp [hm]), hi]
  · intro he hm
    rw [on_file_loaded, if_neg (by simp [he]), if_pos hm]
  · intro items he hm hi
    rw [on_file_loaded, if_neg (by simp [he]), if_neg (by simp [hm]), hi]
  · intro he
    rw [on_file_loaded, if_pos (by simp [he])]

/-- Witness for the amended C7 at concrete inputs: a document with neither
shape is unrecognized, and the ambiguous document from the counterexample is
classified as a save. -/
theorem on_file_loaded_classification_witness :
    on_file_loaded [("foo", Json.null)] = LoadOutcome.unrecognized ∧
    on_file_loaded [("maps", Json.null), ("items", Json.null)]
      = LoadOutcome.saveLoaded [("maps", Json.null), ("items", Json.null)] :=
  ⟨(on_file_loaded_classification [("foo", Json.null)]).1.mpr
      ⟨by simp, rfl, rfl⟩,
   (on_file_loaded_classification [("maps", Json.null), ("items", Json.null)]).2.1
      (by simp) rfl⟩

/-- C8 counterexample: the spinboxes clamp from above as well — a requested
cash of 2000000000 is stored as 1000000000, not as
`max 0 2000000000 = 2000000000`, so "stored value is the input clamped to be
non-negative" fails at this input. -/
theorem resource_upper_clamp_counterexample :
    ¬ ((edit_player_resources ⟨1, "P", 0⟩ ⟨"T", 0, 0, 1, 0, 0, 0, "h", 0⟩ ⟨0⟩
          ⟨2000000000, 0, 0, 1, 0, 0, 0, 0, 0, 0⟩).1.cash
        = max 0 2000000000) := by
  intro h
  have h2 : (1000000000 : Int) = 2000000000 := h
  exact absurd h2 (by decide)

/-- C8 amended: each recognized resource is routed to its owning record —
`cash` to `playerInfo`, `coins/xp/level/stone/wood/food/race/skin` to the
first map, `mana` to `privateState` — and each numeric field is stored clamped
into the spinbox range `[0, 1000000000]` (so in particular non-negative, and a
requested `cash` of -5 is stored as 0); fields not owned by a resource key
(`pid`, `name`) are untouched.  There is no channel for unrecognized keys: the
dialog has exactly these widgets. -/
theorem edit_player_resources_routing (player_info : PlayerInfo) (map_data : TownMap)
    (private_state : PrivateState) (req : ResourceEdit) :
    (edit_player_resources player_info map_data private_state req).1.cash
        = spinClamp req.cash ∧
    (edit_player_resources player_info map_data private_state req).2.1.coins
        = spinClamp req.coins ∧
    (edit_player_resources player_info map_data private_state req).2.1.xp
        = spinClamp req.xp ∧
    (edit_player_resources player_info map_data private_state req).2.1.level
        = spinClamp req.level ∧
    (edit_player_resources player_info map_data private_state req).2.1.stone
        = spinClamp req.stone ∧
    (edit_player_resources player_info map_data private_state req).2.1.wood
        = spinClamp req.wood ∧
    (edit_player_resources player_info map_data private_state req).2.1.food
        = spinClamp req.food ∧
    (edit_player_resources player_info map_data private_state req).2.2.mana
        = spinClamp req.mana ∧
    (edit_player_resources player_info map_data private_state req).2.1.race
        = race_options.get ⟨req.raceIdx.1, req.raceIdx.2⟩ ∧
    (edit_player_resources player_info map_data private_state req).2.1.skin
        = req.skinIdx.1 ∧
    (edit_player_resources player_info map_data private_state req).1.pid
        = player_info.pid ∧
    (edit_player_resources player_info map_data private_state req).1.name
        = player_info.name ∧
    (edit_player_resources player_info map_data private_state req).2.1.name
        = map_data.name ∧
    (∀ v : Int, 0 ≤ spinClamp v ∧ spinClamp v ≤ 1000000000) ∧
    spinClamp (-5) = 0 := by
  refine ⟨rfl, rfl, rfl, rfl, rfl, rfl, rfl, rfl, rfl, rfl, rfl, rfl, rfl, ?_, by decide⟩
  intro v
  constructor
  · exact le_max_left 0 (min v 1000000000)
  · rw [spinClamp]
    omega

/-- One step of the patch fold: the head entry is applied to the accumulator
(or skipped on a non-`.json` name, a parse failure, or a patch failure) and
the fold continues with the rest. -/
theorem apply_all_patches_cons (acc : Json) (e : PatchEntry) (post : List PatchEntry) :
    apply_all_patches acc (e :: post)
      = apply_all_patches
          (if endswith_json e.1 then
            match e.2 with
            | Except.error _ => acc
            | Except.ok ops =>
              match applyPatchDoc ops acc with
              | Except.ok cfg2 => cfg2
              | Except.error _ => acc
          else acc) post := rfl

/-- C3: patch documents are applied as a sequential fold (each document sees
the cumulative result of the prior ones), a document whose application fails
contributes nothing at all (the accumulated config of the prior documents is
kept verbatim) while the fold continues over the remaining documents, and a
document that fails to parse is likewise skipped without aborting the load.
The per-document atomicity mirrors `jsonpatch.JsonPatch.apply`'s default
copy-then-apply behaviour; the `print` reporting is a side effect outside the
data model. -/
theorem apply_all_patches_sequential_and_atomic :
    (∀ (base : Json) (l1 l2 : List PatchEntry),
        apply_all_patches base (l1 ++ l2)
          = apply_all_patches (apply_all_patches base l1) l2) ∧
    (∀ (base : Json) (pre post : List PatchEntry) (nm : String) (ops : List PatchOp)
        (msg : String),
        applyPatchDoc ops (apply_all_patches base pre) = Except.error msg →
        apply_all_patches base (pre ++ (nm, Except.ok ops) :: post)
          = apply_all_patches (apply_all_patches base pre) post) ∧
    (∀ (base : Json) (pre post : List PatchEntry) (nm msg : String),
        apply_all_patches base (pre ++ (nm, Except.error msg) :: post)
          = apply_all_patches (apply_all_patches base pre) post) := by
  have happ : ∀ (base : Json) (l1 l2 : List PatchEntry),
      apply_all_patches base (l1 ++ l2) = apply_all_patches (apply_all_patches base l1) l2 := by
    intro base l1 l2
    simp [apply_all_patches, List.foldl_append]
  refine ⟨happ, ?_, ?_⟩
  · intro base pre post nm ops msg h
    rw [happ, apply_all_patches_cons]
    simp only [h]
    rw [ite_self]
  · intro base pre post nm msg
    rw [happ, apply_all_patches_cons]
    simp only []
    rw [ite_self]

/-- Witness for C3 at concrete inputs: between two applicable patches, a patch
document whose `remove` targets a missing path leaves the accumulated config
exactly as it was, and the trailing document is still processed. -/
theorem apply_all_patches_failing_doc_witness :
    apply_all_patches (Json.obj [("items", Json.arr [])])
        ([("a.json", Except.ok [PatchOp.add ["items", "-"] (Json.int 1)])] ++
          ("b.json", Except.ok [PatchOp.remove ["nope"]]) ::
          [("c.json", Except.ok [PatchOp.add ["items", "-"] (Json.int 2)])])
      = apply_all_patches
          (apply_all_patches (Json.obj [("items", Json.arr [])])
            [("a.json", Except.ok [PatchOp.add ["items", "-"] (Json.int 1)])])
          [("c.json", Except.ok [PatchOp.add ["items", "-"] (Json.int 2)])] :=
  apply_all_patches_sequential_and_atomic.2.1 (Json.obj [("items", Json.arr [])])
    [("a.json", Except.ok [PatchOp.add ["items", "-"] (Json.int 1)])]
    [("c.json", Except.ok [PatchOp.add ["items", "-"] (Json.int 2)])]
    "b.json" [PatchOp.remove ["nope"]] "remove operation failed" rfl

/-- C4 counterexample: two patch files whose application order matters, listed
in non-lexicographic order.  Applying them in listing order does not equal
applying them in lexicographic (sorted-by-name) order, so the loader does not
apply patches lexicographically — it follows the `os.listdir` enumeration. -/
theorem apply_all_patches_not_lexicographic :
    ¬ (apply_all_patches (Json.obj [("v", Json.int 0)])
          [("b.json", Except.ok [PatchOp.replace ["v"] (Json.int 2)]),
           ("a.json", Except.ok [PatchOp.replace ["v"] (Json.int 1)])]
        = apply_all_patches (Json.obj [("v", Json.int 0)])
            (sortByName
              [("b.json", Except.ok [PatchOp.replace ["v"] (Json.int 2)]),
               ("a.json", Except.ok [PatchOp.replace ["v"] (Json.int 1)])])) := by
  intro h
  have h2 : (1 : Int) = 2 :=
    congrArg (fun j => match j with | Json.obj (("v", Json.int n) :: _) => n | _ => 0) h
  exact absurd h2 (by decide)

/-- C4 amended: the loader applies exactly the `.json`-named entries of the
directory listing, in listing (enumeration) order, as a sequential fold —
deterministic for a fixed listing, but in `os.listdir` order rather than any
lexicographic order — and a missing patch directory returns the base config
unchanged. -/
theorem apply_all_patches_follows_listing_order (base : Json) (listing : List PatchEntry) :
    apply_all_patches base listing
      = (listing.filter (fun entry => endswith_json entry.1)).foldl
          (fun cfg entry =>
            match entry.2 with
            | Except.error _ => cfg
            | Except.ok ops =>
              match applyPatchDoc ops cfg with
              | Except.ok cfg2 => cfg2
              | Except.error _ => cfg) base ∧
    apply_all_patches_dir base true listing = apply_all_patches base listing ∧
    apply_all_patches_dir base false listing = base := by
  refine ⟨?_, rfl, rfl⟩
  induction listing generalizing base with
  | nil => rfl
  | cons e rest ih =>
    rw [apply_all_patches_cons]
    by_cases he : endswith_json e.1 = true
    · rw [if_pos he, ih]
      have hf : List.filter (fun entry : PatchEntry => endswith_json entry.1) (e :: rest)
          = e :: List.filter (fun entry => endswith_json entry.1) rest := by
        simp [List.filter_cons, he]
      rw [hf, List.foldl_cons]
    · rw [if_neg he, ih]
      have hf : List.filter (fun entry : PatchEntry => endswith_json entry.1) (e :: rest)
          = List.filter (fun entry => endswith_json entry.1) rest := by
        simp [List.filter_cons, he]
      rw [hf]

/-- Positions below every selected index are unaffected: if all selected rows
are below the current position, everything is kept. -/
theorem keepFrom_skip (s : List Nat) : ∀ (i : Nat) (l : List α),
    (∀ x ∈ s, x < i) → keepFrom s i l = l := by
  intro i l
  induction l generalizing i with
  | nil => intro _; rfl
  | cons a as ih =>
    intro h
    have hni : i ∉ s := fun hin => absurd (h i hin) (lt_irrefl i)
    rw [keepFrom, if_neg hni, ih (i + 1) (fun x hx => Nat.lt_succ_of_lt (h x hx))]

/-- `keepFrom` only consults membership of the selection list. -/
theorem keepFrom_congr (s t : List Nat) (hmem : ∀ x, x ∈ s ↔ x ∈ t) :
    ∀ (i : Nat) (l : List α), keepFrom s i l = keepFrom t i l := by
  intro i l
  induction l generalizing i with
  | nil => rfl
  | cons a as ih =>
    by_cases hi : i ∈ s
    · rw [keepFrom, if_pos hi, keepFrom, if_pos ((hmem i).mp hi), ih]
    · rw [keepFrom, if_neg hi, keepFrom, if_neg (fun hx => hi ((hmem i).mpr hx)), ih]

/-- A selected row at or beyond the end of the remaining list never matches a
position, so it can be dropped from the selection. -/
theorem keepFrom_big (r : Nat) (s : List Nat) : ∀ (i : Nat) (l : List α),
    i + l.length ≤ r → keepFrom (r :: s) i l = keepFrom s i l := by
  intro i l
  induction l generalizing i with
  | nil => intro _; rfl
  | cons a as ih =>
    intro h
    have hlen : i < r := by simp at h; omega
    have hstep : i + 1 + as.length ≤ r := by simp at h; omega
    by_cases hi : i ∈ s
    · rw [keepFrom, if_pos (by simp [hi]), keepFrom, if_pos hi, ih (i + 1) hstep]
    · have : i ∉ r :: s := by
        simp only [List.mem_cons]
        rintro (rfl | hx)
        · exact absurd hlen (lt_irrefl i)
        · exact hi hx
      rw [keepFrom, if_neg this, keepFrom, if_neg hi, ih (i + 1) hstep]

/-- Deleting the list element at offset `k` (absolute position `i + k`) and
then keeping with selection `s` — all of whose members lie below `i + k` — is
keeping with the deleted position added to the selection. -/
theorem keepFrom_erase (l : List α) : ∀ (i k : Nat) (s : List Nat),
    k < l.length → (∀ x ∈ s, x < i + k) →
    keepFrom s i (l.eraseIdx k) = keepFrom ((i + k) :: s) i l := by
  induction l with
  | nil => intro i k s hk _; simp at hk
  | cons a as ih =>
    intro i k s hk hs
    cases k with
    | zero =>
      rw [List.eraseIdx_cons_zero]
      have h1 : keepFrom s i as = as := keepFrom_skip s i as (by simpa using hs)
      have h2 : i ∈ (i + 0) :: s := by simp
      rw [h1, keepFrom, if_pos h2,
        keepFrom_skip ((i + 0) :: s) (i + 1) as ?_]
      intro x hx
      rcases List.mem_cons.mp hx with rfl | hx2
      · omega
      · have := hs x hx2; omega
    | succ k =>
      rw [List.eraseIdx_cons_succ]
      have hk2 : k < as.length := by simp at hk; omega
      by_cases hi : i ∈ s
      · have hi2 : i ∈ (i + (k + 1)) :: s := by simp [hi]
        rw [keepFrom, if_pos hi, keepFrom, if_pos hi2,
          ih (i + 1) k s hk2 (fun x hx => by have := hs x hx; omega)]
        have : i + 1 + k = i + (k + 1) := by omega
        rw [this]
      · have hi2 : i ∉ (i + (k + 1)) :: s := by
          simp only [List.mem_cons]
          rintro (h | hx)
          · omega
          · exact hi hx
        rw [keepFrom, if_neg hi, keepFrom, if_neg hi2,
          ih (i + 1) k s hk2 (fun x hx => by have := hs x hx; omega)]
        have : i + 1 + k = i + (k + 1) := by omega
        rw [this]

/-- The descending deletion fold equals position-based filtering when the row
list is strictly descending. -/
theorem delete_fold_keep (rows : List Nat) : ∀ (l : List α),
    rows.Pairwise (fun a b => b < a) →
    rows.foldl (fun acc row => if row < acc.length then acc.eraseIdx row else acc) l
      = keepFrom rows 0 l := by
  induction rows with
  | nil => intro l _; rw [List.foldl_nil, keepFrom_skip [] 0 l (by simp)]
  | cons r rest ih =>
    intro l hp
    rw [List.foldl_cons]
    have hr : ∀ x ∈ rest, x < r := (List.pairwise_cons.mp hp).1
    have hrest := (List.pairwise_cons.mp hp).2
    by_cases hlt : r < l.length
    · rw [if_pos hlt, ih _ hrest,
        keepFrom_erase l 0 r rest hlt (by simpa using hr)]
      have : (0 : Nat) + r = r := by omega
      rw [this]
    · rw [if_neg hlt, ih _ hrest, keepFrom_big r rest 0 l (by omega)]

/-- C6: `delete_selected_items` de-duplicates the selected row indices,
processes them in descending order (so earlier removals never shift later
targets), validates each against the current length, and removes exactly the
instances whose zero-based position is a selected (hence valid) index: the
result keeps precisely the elements at unselected positions, in their original
relative order, and an empty selection returns the items unchanged. -/
theorem delete_selected_items_spec (items : List ItemInstance) (selected : List Nat) :
    delete_selected_items items selected = keepFrom selected 0 items ∧
    delete_selected_items items [] = items := by
  have main : ∀ (l : List ItemInstance) (sel : List Nat),
      delete_selected_items l sel = keepFrom sel 0 l := by
    intro l sel
    simp only [delete_selected_items]
    have hsorted : (List.insertionSort (fun a b : Nat => a ≤ b) sel.dedup).Pairwise
        (fun a b : Nat => a ≤ b) :=
      List.sorted_insertionSort (fun a b : Nat => a ≤ b) sel.dedup
    have hnodup : (List.insertionSort (fun a b : Nat => a ≤ b) sel.dedup).Nodup :=
      ((List.perm_insertionSort (fun a b : Nat => a ≤ b) sel.dedup).symm).nodup
        (List.nodup_dedup sel)
    have hlt : (List.insertionSort (fun a b : Nat => a ≤ b) sel.dedup).Pairwise
        (fun a b : Nat => a < b) :=
      (hsorted.and hnodup).imp (fun h => lt_of_le_of_ne h.1 h.2)
    have hpair : ((List.insertionSort (fun a b : Nat => a ≤ b) sel.dedup).reverse).Pairwise
        (fun a b : Nat => b < a) := by
      rw [List.pairwise_reverse]
      exact hlt
    rw [delete_fold_keep _ l hpair]
    refine keepFrom_congr _ _ (fun x => ?_) 0 l
    rw [List.mem_reverse, (List.perm_insertionSort (fun a b : Nat => a ≤ b) sel.dedup).mem_iff,
      List.mem_dedup]
  refine ⟨main items selected, ?_⟩
  rw [main items [], keepFrom_skip [] 0 items (by simp)]

/-- Digit characters are digits. -/
theorem isDigit_digitChar (d : Nat) (hd : d < 10) : isDigit (digitChar d) = true := by
  interval_cases d <;> decide

/-- Digit characters decode to their value. -/
theorem digitVal_digitChar (d : Nat) (hd : d < 10) : digitVal (digitChar d) = d := by
  interval_cases d <;> decide

/-- Digit characters are not whitespace. -/
theorem isWs_digitChar (d : Nat) (hd : d < 10) : isWs (digitChar d) = false := by
  interval_cases d <;> decide

/-- Digit characters are none of the structural delimiters or the sign. -/
theorem digitChar_ne (d : Nat) (hd : d < 10) :
    digitChar d ≠ ']' ∧ digitChar d ≠ '\x7d' ∧ digitChar d ≠ '-' ∧ digitChar d ≠ '"' ∧
    digitChar d ≠ '\\' := by
  interval_cases d <;> exact ⟨by decide, by decide, by decide, by decide, by decide⟩

/-- A digit character is not whitespace (for symbolic digits). -/
theorem not_ws_of_isDigit (c : Char) (h : isDigit c = true) : isWs c = false := by
  by_contra hne
  have hws : isWs c = true := by
    cases hx : isWs c
    · exact absurd hx hne
    · rfl
  rcases (by simpa [isWs] using hws : ((c = ' ' ∨ c = '\t') ∨ c = '\n') ∨ c = '\r') with
    ((rfl | rfl) | rfl) | rfl <;> exact absurd h (by decide)

/-- The decimal printer emits a digit first. -/
theorem digitsGo_cons (f : Nat) : ∀ n : Nat, n < f →
    ∃ d t, d < 10 ∧ digitsGo f n = digitChar d :: t := by
  induction f with
  | zero => intro n hn; omega
  | succ g ih =>
    intro n hn
    by_cases h10 : n < 10
    · exact ⟨n, [], h10, by rw [digitsGo, if_pos h10]⟩
    · have hdiv : n / 10 < g := by
        have h1 : 0 < n := by omega
        have := Nat.div_lt_self h1 (by omega : 1 < 10)
        omega
      obtain ⟨d, t, hd, ht⟩ := ih (n / 10) hdiv
      exact ⟨d, t ++ [digitChar (n % 10)], hd, by rw [digitsGo, if_neg h10, ht]; rfl⟩

/-- Scanning the printed digits of `n` continues into the remaining input with
the value accumulated. -/
theorem readDigits_digitsGo (f : Nat) : ∀ (n acc : Nat) (rest : List Char), n < f →
    readDigits (digitsGo f n ++ rest) acc
      = readDigits rest (acc * 10 ^ (digitsGo f n).length + n) := by
  induction f with
  | zero => intro n _ _ hn; omega
  | succ g ih =>
    intro n acc rest hn
    by_cases h10 : n < 10
    · rw [digitsGo, if_pos h10]
      rw [List.singleton_append, readDigits, if_pos (isDigit_digitChar n h10),
        digitVal_digitChar n h10]
      norm_num
    · have hdiv : n / 10 < g := by
        have h1 : 0 < n := by omega
        have := Nat.div_lt_self h1 (by omega : 1 < 10)
        omega
      rw [digitsGo, if_neg h10, List.append_assoc, List.singleton_append,
        ih (n / 10) acc (digitChar (n % 10) :: rest) hdiv,
        readDigits, if_pos (isDigit_digitChar (n % 10) (by omega)),
        digitVal_digitChar (n % 10) (by omega)]
      congr 1
      have hlen : (digitsGo g (n / 10) ++ [digitChar (n % 10)]).length
          = (digitsGo g (n / 10)).length + 1 := by simp
      rw [hlen, pow_succ]
      have hshape : (acc * (10 ^ (digitsGo g (n / 10)).length * 10) : Nat)
          = acc * 10 ^ (digitsGo g (n / 10)).length * 10 := by ring
      rw [hshape]
      have hmod := Nat.div_add_mod n 10
      have hexp : (acc * 10 ^ (digitsGo g (n / 10)).length + n / 10) * 10 + n % 10
          = acc * 10 ^ (digitsGo g (n / 10)).length * 10 + (10 * (n / 10) + n % 10) := by ring
      rw [hexp, hmod]

/-- The digit scanner stops at a delimiter. -/
theorem readDigits_stop (rest : List Char) (acc : Nat) (hd : Delim rest) :
    readDigits rest acc = (acc, rest) := by
  rcases hd with rfl | ⟨c, t, rfl, hc⟩
  · rfl
  · rcases hc with rfl | rfl | rfl <;>
      (rw [readDigits, if_neg]; decide)

/-- The decimal printer for naturals emits a digit first. -/
theorem natChars_cons (m : Nat) : ∃ d t, d < 10 ∧ natChars m = digitChar d :: t :=
  digitsGo_cons (m + 1) m (Nat.lt_succ_self m)

/-- Scanning a printed natural in front of a delimiter yields the number and
the delimiter. -/
theorem readDigits_natChars (m : Nat) (rest : List Char) (hd : Delim rest) :
    readDigits (natChars m ++ rest) 0 = (m, rest) := by
  rw [natChars, readDigits_digitsGo (m + 1) m 0 rest (Nat.lt_succ_self m)]
  norm_num
  exact readDigits_stop rest m hd

/-- Parsing the printed form of a natural number in front of a delimiter. -/
theorem parseNum_natChars (m : Nat) (rest : List Char) (hd : Delim rest) :
    parseNum (natChars m ++ rest) = some (Json.int (m : Int), rest) := by
  obtain ⟨d, t, hdlt, hnc⟩ := natChars_cons m
  have hscan := readDigits_natChars m rest hd
  rw [hnc] at hscan ⊢
  rw [List.cons_append] at hscan ⊢
  rw [parseNum.eq_def]
  split
  · rename_i c2 cs2 heq
    rw [List.cons.injEq] at heq
    exact absurd heq.1 (digitChar_ne d hdlt).2.2.1
  · rename_i c2 cs2 heq
    rw [List.cons.injEq] at heq
    obtain ⟨he1, he2⟩ := heq
    rw [← he1, ← he2, if_pos (isDigit_digitChar d hdlt)]
    simp only [hscan]
  · rename_i heq
    exact absurd heq (List.cons_ne_nil _ _)

/-- Parsing the printed form of any integer in front of a delimiter. -/
theorem parseNum_intChars (n : Int) (rest : List Char) (hd : Delim rest) :
    parseNum (intChars n ++ rest) = some (Json.int n, rest) := by
  by_cases hn : n < 0
  · rw [intChars, if_pos hn]
    obtain ⟨d, t, hdlt, hnc⟩ := natChars_cons n.natAbs
    have hscan := readDigits_natChars n.natAbs rest hd
    rw [hnc, List.cons_append] at hscan
    rw [hnc, List.cons_append, List.cons_append, parseNum, if_pos (isDigit_digitChar d hdlt)]
    simp only [hscan]
    have : (-(n.natAbs : Int)) = n := by omega
    rw [this]
  · rw [intChars, if_neg hn]
    have := parseNum_natChars n.toNat rest hd
    have htn : ((n.toNat : Nat) : Int) = n := by omega
    rw [htn] at this
    exact this

/-- Unescaping inverts escaping: parsing an escaped string body up to its
closing quote recovers the original characters. -/
theorem parseStrChars_escape (s : List Char) : ∀ rest : List Char,
    parseStrChars (escapeChars s ++ '"' :: rest) = some (s, rest) := by
  induction s with
  | nil => intro rest; rfl
  | cons c cs ih =>
    intro rest
    by_cases hc : (c == '"' || c == '\\') = true
    · rw [escapeChars, if_pos hc, List.cons_append, List.cons_append,
        parseStrChars, if_pos hc, ih rest]
    · have hq : c ≠ '"' := by
        intro h
        rw [h] at hc
        exact hc (by decide)
      have hb : c ≠ '\\' := by
        intro h
        rw [h] at hc
        exact hc (by decide)
      rw [escapeChars, if_neg hc, List.cons_append, parseStrChars.eq_def]
      split
      · rename_i cs2 heq
        rw [List.cons.injEq] at heq
        exact absurd heq.1 hq
      · rename_i c2 cs2 heq
        rw [List.cons.injEq] at heq
        exact absurd heq.1 hb
      · rename_i c2 cs2 hne1 hne2 heq
        rw [List.cons.injEq] at heq
        obtain ⟨he1, he2⟩ := heq
        rw [← he1, ← he2, ih rest]
      · rename_i heq
        exact absurd heq (List.cons_ne_nil _ _)

/-- Step lemma: a value parse on input starting with `n` consumes `null`. -/
theorem parseP_null (f : Nat) (rest : List Char) :
    parseP (f + 1) PM.v ('n' :: 'u' :: 'l' :: 'l' :: rest) = some (Json.null, rest) := rfl

/-- Step lemma: a value parse consumes `true`. -/
theorem parseP_true (f : Nat) (rest : List Char) :
    parseP (f + 1) PM.v ('t' :: 'r' :: 'u' :: 'e' :: rest) = some (Json.bool true, rest) := rfl

/-- Step lemma: a value parse consumes `false`. -/
theorem parseP_false (f : Nat) (rest : List Char) :
    parseP (f + 1) PM.v ('f' :: 'a' :: 'l' :: 's' :: 'e' :: rest)
      = some (Json.bool false, rest) := rfl

/-- Step lemma: a value parse on a quote delegates to the string scanner. -/
theorem parseP_quote (f : Nat) (cs0 : List Char) :
    parseP (f + 1) PM.v ('"' :: cs0)
      = (match parseStrChars cs0 with
         | some (s, rest2) => some (Json.str (String.mk s), rest2)
         | none => none) := rfl

/-- Step lemma: a value parse on `[` inspects the next token. -/
theorem parseP_lbrack (f : Nat) (rest : List Char) :
    parseP (f + 1) PM.v ('[' :: rest)
      = (match skipWs rest with
         | ']' :: rest2 => some (Json.arr [], rest2)
         | rest2 => parseP f PM.arrTail rest2) := rfl

/-- Step lemma: a value parse on an opening brace inspects the next token. -/
theorem parseP_lbrace (f : Nat) (rest : List Char) :
    parseP (f + 1) PM.v ('\x7b' :: rest)
      = (match skipWs rest with
         | '\x7d' :: rest2 => some (Json.obj [], rest2)
         | rest2 => parseP f PM.objTail rest2) := rfl

/-- Step lemma: a value parse on a minus sign delegates to the number
scanner. -/
theorem parseP_minus (f : Nat) (cs : List Char) :
    parseP (f + 1) PM.v ('-' :: cs) = parseNum ('-' :: cs) := rfl

/-- Step lemma: a value parse on a digit delegates to the number scanner. -/
theorem parseP_digit (f : Nat) (c : Char) (cs : List Char) (h : isDigit c = true) :
    parseP (f + 1) PM.v (c :: cs) = parseNum (c :: cs) := by
  have hws := not_ws_of_isDigit c h
  rw [parseP, skipWs]
  rw [hws]
  simp only [Bool.false_eq_true, if_false, h, Bool.true_or, if_pos]

/-- Every serialized value starts with a non-whitespace character that is not
a closing token, and in particular serialized output is never empty. -/
theorem dumps_head (j : Json) :
    ∃ c t, dumps j = c :: t ∧ isWs c = false ∧ c ≠ ']' ∧ c ≠ '\x7d' := by
  cases j with
  | null => exact ⟨'n', _, by rw [dumps]; rfl, by decide, by decide, by decide⟩
  | bool b =>
    cases b with
    | true => exact ⟨'t', _, by rw [dumps]; rfl, by decide, by decide, by decide⟩
    | false => exact ⟨'f', _, by rw [dumps]; rfl, by decide, by decide, by decide⟩
  | int n =>
    rw [dumps]
    by_cases hn : n < 0
    · exact ⟨'-', _, by rw [intChars, if_pos hn], by decide, by decide, by decide⟩
    · obtain ⟨d, t, hd, ht⟩ := natChars_cons n.toNat
      refine ⟨digitChar d, t, by rw [intChars, if_neg hn, ht], isWs_digitChar d hd,
        (digitChar_ne d hd).1, (digitChar_ne d hd).2.1⟩
  | str s =>
    exact ⟨'"', _, by rw [dumps, serStr], by decide, by decide, by decide⟩
  | arr xs =>
    cases xs with
    | nil => exact ⟨'[', _, by rw [dumps], by decide, by decide, by decide⟩
    | cons x xs2 => exact ⟨'[', _, by rw [dumps], by decide, by decide, by decide⟩
  | obj kvs =>
    cases kvs with
    | nil => exact ⟨'\x7b', _, by rw [dumps], by decide, by decide, by decide⟩
    | cons kv kvs2 => exact ⟨'\x7b', _, by rw [dumps], by decide, by decide, by decide⟩

/-- Serialized output is nonempty. -/
theorem dumps_length_pos (j : Json) : 0 < (dumps j).length := by
  obtain ⟨c, t, hct, -, -, -⟩ := dumps_head j
  rw [hct]
  simp

/-- Whitespace skipping leaves a non-whitespace head alone. -/
theorem skipWs_not_ws (c : Char) (cs : List Char) (h : isWs c = false) :
    skipWs (c :: cs) = c :: cs := by
  rw [skipWs, h]
  simp

/-- A comma heads a legal follower of a number. -/
theorem delim_comma (t : List Char) : Delim (',' :: t) := Or.inr ⟨',', t, rfl, Or.inl rfl⟩

/-- A closing bracket heads a legal follower of a number. -/
theorem delim_rbrack (t : List Char) : Delim (']' :: t) := Or.inr ⟨']', t, rfl, Or.inr (Or.inl rfl)⟩

/-- A closing brace heads a legal follower of a number. -/
theorem delim_rbrace (t : List Char) : Delim ('\x7d' :: t) :=
  Or.inr ⟨'\x7d', t, rfl, Or.inr (Or.inr rfl)⟩

/-- Composition step: an array-tail parse whose first element is followed by a
comma and a parsed tail. -/
theorem arrTail_step_comma (f : Nat) (x : Json) (cs cs2 rest : List Char) (xs : List Json)
    (h1 : parseP f PM.v cs = some (x, ',' :: cs2))
    (h2 : parseP f PM.arrTail cs2 = some (Json.arr xs, rest)) :
    parseP (f + 1) PM.arrTail cs = some (Json.arr (x :: xs), rest) := by
  rw [parseP, h1]
  simp only [skipWs, show isWs ',' = false from by decide, Bool.false_eq_true, if_false, h2]

/-- Composition step: an array-tail parse whose first element is the last one,
followed by the closing bracket. -/
theorem arrTail_step_last (f : Nat) (x : Json) (cs cs2 : List Char)
    (h1 : parseP f PM.v cs = some (x, ']' :: cs2)) :
    parseP (f + 1) PM.arrTail cs = some (Json.arr [x], cs2) := by
  rw [parseP, h1]
  simp only [skipWs, show isWs ']' = false from by decide, Bool.false_eq_true, if_false]

/-- Composition step: an object-tail parse of one member followed by a comma
and a parsed tail. -/
theorem objTail_step_comma (f : Nat) (kc : List Char) (v : Json) (cs0 cs2 cs4 rest : List Char)
    (kvs : List (String × Json))
    (hk : parseStrChars cs0 = some (kc, ':' :: cs2))
    (hv : parseP f PM.v cs2 = some (v, ',' :: cs4))
    (ht : parseP f PM.objTail cs4 = some (Json.obj kvs, rest)) :
    parseP (f + 1) PM.objTail ('"' :: cs0)
      = some (Json.obj ((String.mk kc, v) :: kvs), rest) := by
  rw [parseP]
  simp only [skipWs, show isWs '"' = false from by decide, Bool.false_eq_true, if_false, hk,
    show isWs ':' = false from by decide, hv, show isWs ',' = false from by decide, ht]

/-- Composition step: an object-tail parse of the final member followed by the
closing brace. -/
theorem objTail_step_last (f : Nat) (kc : List Char) (v : Json) (cs0 cs2 cs4 : List Char)
    (hk : parseStrChars cs0 = some (kc, ':' :: cs2))
    (hv : parseP f PM.v cs2 = some (v, '\x7d' :: cs4)) :
    parseP (f + 1) PM.objTail ('"' :: cs0) = some (Json.obj [(String.mk kc, v)], cs4) := by
  rw [parseP]
  simp only [skipWs, show isWs '"' = false from by decide, Bool.false_eq_true, if_false, hk,
    show isWs ':' = false from by decide, hv, show isWs '\x7d' = false from by decide]

/-- Shape of a serialized string with trailing input. -/
theorem dumps_str_shape (s : String) (rest : List Char) :
    dumps (Json.str s) ++ rest
      = '"' :: (escapeChars s.toList ++ '"' :: rest) := by
  rw [dumps, serStr]
  simp [List.append_assoc]

/-- Shape of a serialized non-empty array with trailing input. -/
theorem dumps_arr_shape (x : Json) (xs : List Json) (rest : List Char) :
    dumps (Json.arr (x :: xs)) ++ rest = '[' :: (serList x xs ++ ']' :: rest) := by
  rw [dumps]
  simp [List.append_assoc]

/-- Shape of a serialized non-empty object with trailing input. -/
theorem dumps_obj_shape (kv : String × Json) (kvs : List (String × Json)) (rest : List Char) :
    dumps (Json.obj (kv :: kvs)) ++ rest = '\x7b' :: (serFields kv kvs ++ '\x7d' :: rest) := by
  rw [dumps]
  simp [List.append_assoc]

/-- Shape of a serialized singleton array body with trailing input. -/
theorem serList_nil_shape (x : Json) (Y : List Char) :
    serList x [] ++ Y = dumps x ++ Y := by
  rw [serList]

/-- Shape of a serialized longer array body with trailing input. -/
theorem serList_cons_shape (x y : Json) (ys : List Json) (Y : List Char) :
    serList x (y :: ys) ++ Y = dumps x ++ ',' :: (serList y ys ++ Y) := by
  rw [serList]
  simp [List.append_assoc]

/-- Shape of a serialized single-member object body with trailing input. -/
theorem serFields_nil_shape (k : String) (v : Json) (Y : List Char) :
    serFields (k, v) [] ++ Y
      = '"' :: (escapeChars k.toList ++ '"' :: (':' :: (dumps v ++ Y))) := by
  rw [serFields, serStr]
  simp [List.append_assoc]

/-- Shape of a serialized longer object body with trailing input. -/
theorem serFields_cons_shape (k : String) (v : Json) (kv2 : String × Json)
    (kvs2 : List (String × Json)) (Y : List Char) :
    serFields (k, v) (kv2 :: kvs2) ++ Y
      = '"' :: (escapeChars k.toList ++ '"' ::
          (':' :: (dumps v ++ ',' :: (serFields kv2 kvs2 ++ Y)))) := by
  rw [serFields, serStr]
  simp [List.append_assoc]

/-- The serialized body of a non-empty array starts with a character that is
neither whitespace nor a closing token. -/
theorem serList_head (x : Json) (xs : List Json) :
    ∃ c t, serList x xs = c :: t ∧ isWs c = false ∧ c ≠ ']' ∧ c ≠ '\x7d' := by
  obtain ⟨c, t, hct, h1, h2, h3⟩ := dumps_head x
  cases xs with
  | nil => exact ⟨c, t, by rw [serList, hct], h1, h2, h3⟩
  | cons y ys =>
    exact ⟨c, t ++ ',' :: serList y ys, by rw [serList, hct, List.cons_append], h1, h2, h3⟩

/-- The serialized body of a non-empty object starts with a quote. -/
theorem serFields_head (kv : String × Json) (kvs : List (String × Json)) (Y : List Char) :
    ∃ t, serFields kv kvs ++ Y = '"' :: t := by
  obtain ⟨k, v⟩ := kv
  cases kvs with
  | nil => exact ⟨_, serFields_nil_shape k v Y⟩
  | cons kv2 kvs2 => exact ⟨_, serFields_cons_shape k v kv2 kvs2 Y⟩

mutual

/-- Parsing the serialized form of a value, followed by a delimiter, recovers
the value. -/
theorem roundJ (j : Json) (fuel : Nat) (rest : List Char)
    (hf : (dumps j).length < fuel) (hd : Delim rest) :
    parseP fuel PM.v (dumps j ++ rest) = some (j, rest) := by
  cases fuel with
  | zero => exact absurd hf (Nat.not_lt_zero _)
  | succ f =>
    cases j with
    | null =>
      simp only [dumps]
      exact parseP_null f rest
    | bool b =>
      cases b with
      | true => simp only [dumps]; exact parseP_true f rest
      | false => simp only [dumps]; exact parseP_false f rest
    | int n =>
      simp only [dumps]
      by_cases hn : n < 0
      · have hic : intChars n = '-' :: natChars n.natAbs := by rw [intChars, if_pos hn]
        rw [hic, List.cons_append, parseP_minus, ← List.cons_append, ← hic]
        exact parseNum_intChars n rest hd
      · obtain ⟨d, t, hdlt, ht⟩ := natChars_cons n.toNat
        have hic : intChars n = digitChar d :: t := by rw [intChars, if_neg hn, ht]
        rw [hic, List.cons_append, parseP_digit f _ _ (isDigit_digitChar d hdlt),
          ← List.cons_append, ← hic]
        exact parseNum_intChars n rest hd
    | str s =>
      rw [dumps_str_shape, parseP_quote]
      simp only [parseStrChars_escape s.toList rest]
      rfl
    | arr xs =>
      cases xs with
      | nil =>
        simp only [dumps]
        rfl
      | cons x xs2 =>
        rw [dumps_arr_shape, parseP_lbrack]
        obtain ⟨c, t1, hct, hcws, hcne, -⟩ := serList_head x xs2
        rw [hct, List.cons_append, skipWs_not_ws c _ hcws]
        have hlen : (dumps (Json.arr (x :: xs2))).length = (serList x xs2).length + 2 := by
          rw [dumps]
          simp
        split
        · rename_i r2 heq
          rw [List.cons.injEq] at heq
          exact absurd heq.1 hcne
        · rw [← List.cons_append, ← hct]
          exact roundL x xs2 f rest (by omega)
    | obj kvs =>
      cases kvs with
      | nil =>
        simp only [dumps]
        rfl
      | cons kv kvs2 =>
        rw [dumps_obj_shape, parseP_lbrace]
        obtain ⟨t1, ht1⟩ := serFields_head kv kvs2 ('\x7d' :: rest)
        rw [ht1, skipWs_not_ws '"' _ (by decide)]
        have hlen : (dumps (Json.obj (kv :: kvs2))).length
            = (serFields kv kvs2).length + 2 := by
          rw [dumps]
          simp
        split
        · rename_i r2 heq
          rw [List.cons.injEq] at heq
          exact absurd heq.1 (by decide)
        · rw [← ht1]
          exact roundF kv.1 kv.2 kvs2 f rest (by rw [Prod.mk.eta]; omega)
termination_by sizeOf j
decreasing_by
  all_goals subst_vars
  all_goals simp_wf
  all_goals first
    | omega
    | (obtain ⟨a, b⟩ := kv; simp; omega)

/-- Parsing the serialized body of a non-empty array plus its closing bracket
recovers the element list. -/
theorem roundL (x : Json) (xs : List Json) (fuel : Nat) (rest : List Char)
    (hf : (serList x xs).length + 1 < fuel) :
    parseP fuel PM.arrTail (serList x xs ++ ']' :: rest) = some (Json.arr (x :: xs), rest) := by
  cases fuel with
  | zero => exact absurd hf (Nat.not_lt_zero _)
  | succ f =>
    cases xs with
    | nil =>
      rw [serList_nil_shape]
      have hlen : (serList x []).length = (dumps x).length := by rw [serList]
      exact arrTail_step_last f x _ rest
        (roundJ x f (']' :: rest) (by omega) (delim_rbrack rest))
    | cons y ys =>
      rw [serList_cons_shape]
      have hlen : (serList x (y :: ys)).length
          = (dumps x).length + 1 + (serList y ys).length := by
        rw [serList]
        simp
        omega
      have hdx := dumps_length_pos x
      exact arrTail_step_comma f x _ _ rest (y :: ys)
        (roundJ x f (',' :: (serList y ys ++ ']' :: rest)) (by omega) (delim_comma _))
        (roundL y ys f rest (by omega))
termination_by 1 + sizeOf x + sizeOf xs
decreasing_by
  all_goals subst_vars
  all_goals simp_wf
  all_goals omega

/-- Parsing the serialized body of a non-empty object plus its closing brace
recovers the member list. -/
theorem roundF (k : String) (v : Json) (kvs : List (String × Json)) (fuel : Nat)
    (rest : List Char)
    (hf : (serFields (k, v) kvs).length + 1 < fuel) :
    parseP fuel PM.objTail (serFields (k, v) kvs ++ '\x7d' :: rest)
      = some (Json.obj ((k, v) :: kvs), rest) := by
  cases fuel with
  | zero => exact absurd hf (Nat.not_lt_zero _)
  | succ f =>
    cases kvs with
    | nil =>
      rw [serFields_nil_shape]
      have hlen : (serFields (k, v) []).length
          = (escapeChars k.toList).length + (dumps v).length + 3 := by
        rw [serFields, serStr]
        simp
        omega
      exact objTail_step_last f k.toList v _ _ rest
        (parseStrChars_escape k.toList (':' :: (dumps v ++ '\x7d' :: rest)))
        (roundJ v f ('\x7d' :: rest) (by omega) (delim_rbrace rest))
    | cons kv2 kvs2 =>
      rw [serFields_cons_shape]
      have hlen : (serFields (k, v) (kv2 :: kvs2)).length
          = (escapeChars k.toList).length + (dumps v).length
            + (serFields kv2 kvs2).length + 4 := by
        rw [serFields, serStr]
        simp
        omega
      exact objTail_step_comma f k.toList v _ _ _ rest (kv2 :: kvs2)
        (parseStrChars_escape k.toList
          (':' :: (dumps v ++ ',' :: (serFields kv2 kvs2 ++ '\x7d' :: rest))))
        (roundJ v f (',' :: (serFields kv2 kvs2 ++ '\x7d' :: rest)) (by omega)
          (delim_comma _))
        (roundF kv2.1 kv2.2 kvs2 f rest (by rw [Prod.mk.eta]; omega))
termination_by 1 + sizeOf v + sizeOf kvs
decreasing_by
  all_goals subst_vars
  all_goals simp_wf
  all_goals first
    | omega
    | (obtain ⟨a, b⟩ := kv2; simp; omega)

end

/-- Serializing any value and reparsing the output recovers the value
exactly. -/
theorem parseTop_dumps (j : Json) : parseTop (dumps j) = some j := by
  have h := roundJ j ((dumps j).length + 1) [] (by omega) (Or.inl rfl)
  rw [List.append_nil] at h
  rw [parseTop, h]
  rfl

/-- C2: for every byte string that parses as a save document, serializing the
parsed, unmodified document and parsing the result yields a value deep-equal
(here: equal as `Json` trees, field sets and values included) to the original
parse.  Byte-for-byte agreement is not claimed: the serializer fixes one
whitespace rendering, and the parser accepts any. -/
theorem serialize_parse_roundtrip (bytes : List Char) (doc : Json)
    (_h : parseTop bytes = some doc) :
    parseTop (dumps doc) = some doc :=
  parseTop_dumps doc

/-- Witness for C2 at a concrete save document: the empty-maps save parses,
and its serialization reparses to the same tree. -/
theorem serialize_parse_roundtrip_witness :
    parseTop (dumps (Json.obj [("maps", Json.arr [])]))
      = some (Json.obj [("maps", Json.arr [])]) :=
  serialize_parse_roundtrip "\x7b\"maps\":[]\x7d".toList
    (Json.obj [("maps", Json.arr [])]) rfl
